import Mathlib

/-!
Verification of the defx-git status column
(`rplugin/python3/defx/column/git.py`) against its specification.

Modelling conventions:

* Python strings are modelled as `List Char` (`Line`); indexing `s[i]`
  raising `IndexError` on out-of-range access is modelled by `charAt`,
  which returns `Except PyExc Char`.
* The comparator `Column.sort` is modelled exactly, including its
  short-circuit evaluation order (it touches `b` only when `a` is
  `M`-flagged and not `U`-flagged), so that the `IndexError` it raises on
  strings shorter than two characters is reproduced faithfully.
* `sorted(results, key=cmp_to_key(self.sort))` is modelled by `pySorted`,
  CPython's list sort (Timsort) specialised to inputs of fewer than 64
  elements, where Timsort performs exactly one `count_run` (a maximal
  strictly descending run is reversed, otherwise a maximal weakly
  ascending run is taken) followed by binary insertion of the remaining
  elements.  For such inputs this is CPython's `sorted` verbatim; `git
  status --porcelain` outputs of interest here are far shorter.
* CPython object identity (`is` / `is not`), which `Column.get` uses to
  compare the resolved git root with the cached one, is modelled by
  pairing each string returned by `find_git_root` with a fresh allocation
  id (`PyStr`); `None` is a singleton, so two `none` values are identical.
* `subprocess.run` is modelled by its observable outcome `SpawnResult`:
  either a completed process with captured stdout (the exit code is
  ignored by the source), or a raised exception.  With no `check=True`
  argument, `subprocess.run` itself never raises
  `subprocess.CalledProcessError`; a missing binary or I/O error raises
  `FileNotFoundError`/`OSError`, modelled as `PyExc.osError`.
-/

namespace DefxGit

/-- A Python string, as a list of characters. -/
abbrev Line := List Char

/-- The Python exceptions that the modelled code can raise or catch. -/
inductive PyExc where
  | indexError
  | osError
  | calledProcessError
deriving DecidableEq

/-- Python `s[i]` on a string: the character, or `IndexError` when out of
range. -/
def charAt (s : Line) (i : Nat) : Except PyExc Char :=
  match s.get? i with
  | some c => .ok c
  | none => .error .indexError

/-- The seven indicator category names of the column. -/
def indicatorNames : List String :=
  ["Untracked", "Modified", "Staged", "Renamed", "Ignored", "Unmerged", "Unknown"]

/-- `Column.get_indicator_name` (git.py lines 130-145): the ordered
cascade mapping a two-character status code pair to a category name. -/
def get_indicator_name (us them : Char) : String :=
  if us = '?' ∧ them = '?' then "Untracked"
  else if us = ' ' ∧ them = 'M' then "Modified"
  else if us ∈ ['M', 'A', 'C'] then "Staged"
  else if us = 'R' then "Renamed"
  else if us = '!' then "Ignored"
  else if us = 'U' ∨ them = 'U' ∨ (us = 'A' ∧ them = 'A') ∨ (us = 'D' ∧ them = 'D')
    then "Unmerged"
  else "Unknown"

/-- Modelled from the spec (§4.1 StatusCodeClassifier): the seven
precedence rules, evaluated in order with first match winning.  Stated
from the spec's words, to be compared with `get_indicator_name`, which is
translated from the source. -/
def specClassify (indexCode worktreeCode : Char) : String :=
  if indexCode = '?' ∧ worktreeCode = '?' then "Untracked"
  else if indexCode = ' ' ∧ worktreeCode = 'M' then "Modified"
  else if indexCode = 'M' ∨ indexCode = 'A' ∨ indexCode = 'C' then "Staged"
  else if indexCode = 'R' then "Renamed"
  else if indexCode = '!' then "Ignored"
  else if indexCode = 'U' ∨ worktreeCode = 'U' ∨
      (indexCode = 'A' ∧ worktreeCode = 'A') ∨ (indexCode = 'D' ∧ worktreeCode = 'D')
    then "Unmerged"
  else "Unknown"

/-- `Column.sort` (git.py lines 118-125): the three-way comparator passed
to `sorted` via `cmp_to_key`.  Evaluation order and short-circuiting match
Python exactly: `a[0]` is read first, `a[1]` only if `a[0] ≠ 'U'`, and `b`
is only read when `a` is `M`-flagged; each read can raise `IndexError`. -/
def sort (a b : Line) : Except PyExc Int := do
  let a0 ← charAt a 0
  if a0 = 'U' then return (-1)
  let a1 ← charAt a 1
  if a1 = 'U' then return (-1)
  if a0 = 'M' ∨ a1 = 'M' then
    let b0 ← charAt b 0
    if b0 = 'U' then return 1
    let b1 ← charAt b 1
    if b1 = 'U' then return 1
    return (-1)
  return 1

/-- Priority tier of a status line, named after the comparator's tests:
0 when the index or worktree code is `'U'`, 1 when it is `'M'` (and not
`'U'`), 2 otherwise.  Used only to state properties of `sort`. -/
def tier (s : Line) : Nat :=
  if s.getD 0 ' ' = 'U' ∨ s.getD 1 ' ' = 'U' then 0
  else if s.getD 0 ' ' = 'M' ∨ s.getD 1 ' ' = 'M' then 1
  else 2

/-- The comparator's verdict expressed on tiers: `sort a b` returns `-1`
exactly when `tier a = 0`, or `tier a = 1` and `tier b ≠ 0`. -/
def cmpTier (ta tb : Nat) : Int :=
  if ta = 0 then -1
  else if ta = 1 ∧ tb ≠ 0 then -1
  else 1

/-- A well-formed status line has at least the two one-character codes. -/
def wfLine (s : Line) : Prop := 2 ≤ s.length

instance : DecidablePred wfLine := fun s =>
  if h : 2 ≤ s.length then .isTrue h else .isFalse h

/-- CPython `count_run`, descending arm: extend the run while the next
element is strictly below its predecessor under the comparator. -/
def descChain (prev : Line) : List Line → Except PyExc (List Line × List Line)
  | [] => pure ([], [])
  | y :: t => do
    let c ← sort y prev
    if c < 0 then do
      let (run, rest) ← descChain y t
      pure (y :: run, rest)
    else
      pure ([], y :: t)

/-- CPython `count_run`, ascending arm: extend the run while the next
element is not strictly below its predecessor. -/
def ascChain (prev : Line) : List Line → Except PyExc (List Line × List Line)
  | [] => pure ([], [])
  | y :: t => do
    let c ← sort y prev
    if c < 0 then
      pure ([], y :: t)
    else do
      let (run, rest) ← ascChain y t
      pure (y :: run, rest)

/-- CPython `count_run`: the maximal initial run, already oriented
ascending (a strictly descending run is reversed), and the remainder. -/
def countRun : List Line → Except PyExc (List Line × List Line)
  | [] => pure ([], [])
  | [x] => pure ([x], [])
  | x0 :: x1 :: rest => do
    let c ← sort x1 x0
    if c < 0 then do
      let (chain, rest') ← descChain x1 rest
      pure ((x0 :: x1 :: chain).reverse, rest')
    else do
      let (chain, rest') ← ascChain x1 rest
      pure (x0 :: x1 :: chain, rest')

/-- Binary search for the insertion point of `pivot` in `arr[l:r]`,
exactly CPython's `binarysort` inner loop (`IFLT(pivot, arr[p])` narrows
to the left half).  The fuel argument bounds the iteration count; it is
called with fuel `r - l`, which the halving never exhausts. -/
def binsearchAux (arr : List Line) (pivot : Line) : Nat → Nat → Nat → Except PyExc Nat
  | 0, l, _ => pure l
  | fuel + 1, l, r =>
    if l < r then do
      let p := l + (r - l) / 2
      let c ← sort pivot (arr.getD p [])
      if c < 0 then binsearchAux arr pivot fuel l p
      else binsearchAux arr pivot fuel (p + 1) r
    else
      pure l

/-- Insertion point of `pivot` in the sorted prefix `arr`. -/
def binsearchPos (arr : List Line) (pivot : Line) : Except PyExc Nat :=
  binsearchAux arr pivot arr.length 0 arr.length

/-- Insert `x` at index `i` (clamped to the end, as Python `list.insert`). -/
def insertIdx : List Line → Nat → Line → List Line
  | l, 0, x => x :: l
  | [], _ + 1, x => [x]
  | y :: t, n + 1, x => y :: insertIdx t n x

/-- CPython `binarysort`: insert each remaining element into the sorted
prefix at its binary-search position. -/
def binsortLoop : List Line → List Line → Except PyExc (List Line)
  | acc, [] => pure acc
  | acc, x :: rest => do
    let i ← binsearchPos acc x
    binsortLoop (insertIdx acc i x) rest

/-- `sorted(results, key=cmp_to_key(self.sort))` (git.py line 103):
CPython's list sort on fewer than 64 elements — one `count_run`, then
binary insertion of the rest. -/
def pySorted (l : List Line) : Except PyExc (List Line) := do
  let (run, rest) ← countRun l
  binsortLoop run rest

/-- Python `str.split('\n')`: split at every newline, keeping empty
pieces (so `"a\nb\n"` yields `["a", "b", ""]`). -/
def splitNL : Line → List Line
  | [] => [[]]
  | c :: t =>
    if c = '\n' then [] :: splitNL t
    else
      match splitNL t with
      | [] => [[c]]
      | h :: r => (c :: h) :: r

/-- Python `str.strip('\n')`: drop newline characters from both ends. -/
def stripNL (s : Line) : Line :=
  ((s.dropWhile (· = '\n')).reverse.dropWhile (· = '\n')).reverse

/-- Python `s.replace(pat, '')` for a pattern `pat`: scan left to right,
deleting every non-overlapping occurrence of `pat` and continuing after
it.  The fuel argument bounds the scan; it is called with `s.length`,
which a scan consuming at least one character per step never exhausts. -/
def removeAllAux : Nat → Line → Line → Line
  | 0, _, s => s
  | fuel + 1, pat, s =>
    match s with
    | [] => []
    | c :: t =>
      if pat ≠ [] ∧ pat.isPrefixOf (c :: t) then
        removeAllAux fuel pat ((c :: t).drop pat.length)
      else
        c :: removeAllAux fuel pat t

/-- Python `s.replace(pat, '')`. -/
def removeAll (pat s : Line) : Line :=
  removeAllAux s.length pat s

/-- A Python string object: its allocation id together with its value.
Two `PyStr`s with the same value and distinct ids are `==`-equal but not
`is`-identical. -/
structure PyStr where
  id : Nat
  val : Line
deriving DecidableEq

/-- Python `x is not y` on an optional string: `None` is a singleton, so
two `none`s are identical; string objects are compared by allocation id. -/
def pyIsNot : Option PyStr → Option PyStr → Bool
  | none, none => false
  | some a, some b => a.id ≠ b.id
  | _, _ => true

/-- Python `f'{x}'` on an optional string: `None` formats as `"None"`. -/
def reprOptRoot : Option PyStr → Line
  | none => "None".data
  | some r => r.val

/-- A defx candidate as consumed by `Column.get`: its absolute path and
the `is_directory` / `is_root` flags. -/
structure Candidate where
  action__path : Line
  is_directory : Bool
  is_root : Bool
deriving DecidableEq

/-- Linear scan of the cached snapshot (git.py lines 80-82): return the
first line whose path field — the characters from offset 3 on — starts
with `path`, or the empty string when none does. -/
def findFirst : List Line → Line → Line
  | [], _ => []
  | item :: rest, path =>
    if path.isPrefixOf (item.drop 3) then item
    else findFirst rest path

/-- `Column.find_in_cache` (git.py lines 77-84): delete every occurrence
of `f'{git_root}/'` from the candidate's path (Python `str.replace`
replaces all occurrences), append `'/'` for directories, then scan the
snapshot for the first line whose path field starts with the result. -/
def find_in_cache (git_root : Option PyStr) (cache : List Line) (cand : Candidate) : Line :=
  let path0 := removeAll (reprOptRoot git_root ++ ['/']) cand.action__path
  let path := path0 ++ (if cand.is_directory then ['/'] else [])
  findFirst cache path

/-- The observable outcome of a `subprocess.run` invocation: a completed
process with its captured stdout (the source never inspects the exit
code), or a raised exception.  Without `check=True`, `subprocess.run`
never raises `CalledProcessError` itself; a missing binary or I/O error
raises an `OSError`. -/
inductive SpawnResult where
  | completed (stdout : Line)
  | raises (e : PyExc)
deriving DecidableEq

/-- `Column.cache_status` (git.py lines 86-103).  `self.cache` is cleared
first; the `try` block catches only `subprocess.CalledProcessError`, so
any other exception propagates (with the cache left empty).  Empty stdout
leaves the cache empty; otherwise the non-empty lines are sorted with the
comparator, which can itself raise `IndexError`.  Returns the
control-flow outcome together with the new value of `self.cache`; the
previous cache value is never read. -/
def cache_status (spawn : SpawnResult) (_cache0 : List Line) :
    Except PyExc Unit × List Line :=
  match spawn with
  | .raises e =>
    if e = .calledProcessError then (.ok (), [])
    else (.error e, [])
  | .completed stdout =>
    if stdout = [] then (.ok (), [])
    else
      let results := (splitNL stdout).filter (· ≠ [])
      match pySorted results with
      | .error e => (.error e, [])
      | .ok sortedLines => (.ok (), sortedLines)

/-- `Column.find_git_root` (git.py lines 105-116): run
`git rev-parse --show-toplevel`; the `except` clause catches only
`CalledProcessError`, so any other exception propagates.  Empty stdout
yields `None`; otherwise the output stripped of newlines. -/
def find_git_root (spawn : SpawnResult) : Except PyExc (Option Line) :=
  match spawn with
  | .raises e =>
    if e = .calledProcessError then .ok none
    else .error e
  | .completed stdout =>
    if stdout = [] then .ok none
    else .ok (some (stripNL stdout))

/-- The configured indicator glyphs, one per category
(`g:defx_git#indicators`). -/
structure Indicators where
  untracked : Line
  modified : Line
  staged : Line
  renamed : Line
  ignored : Line
  unmerged : Line
  unknown : Line
deriving DecidableEq

/-- Dictionary access `self.indicators[name]` for the seven category
names produced by `get_indicator_name`. -/
def Indicators.lookup (ind : Indicators) (name : String) : Line :=
  if name = "Untracked" then ind.untracked
  else if name = "Modified" then ind.modified
  else if name = "Staged" then ind.staged
  else if name = "Renamed" then ind.renamed
  else if name = "Ignored" then ind.ignored
  else if name = "Unmerged" then ind.unmerged
  else if name = "Unknown" then ind.unknown
  else []

/-- The column's configuration (`g:defx_git#indicators`,
`g:defx_git#column_length`, `g:defx_git#show_ignored`).  `show_ignored`
only adds `--ignored` to the external command line and does not affect
the modelled behaviour. -/
structure Config where
  indicators : Indicators
  column_length : Nat
  show_ignored : Bool
deriving DecidableEq

/-- `Column.format` (git.py lines 127-128): Python
`format(column, '<N')`, left-justification to width `N` (never
truncating). -/
def format (column : Line) (width : Nat) : Line :=
  column ++ List.replicate (width - column.length) ' '

/-- The mutable state of a `Column` instance: the cached git root (a
Python object or `None`), the cached snapshot, and the next allocation id
(used to model object identity of strings created by `find_git_root`). -/
structure GitState where
  git_root : Option PyStr
  cache : List Line
  nextId : Nat
deriving DecidableEq

/-- The environment's responses to the two external process invocations
a single `Column.get` call can make. -/
structure Env where
  rootQuery : SpawnResult
  statusQuery : SpawnResult
deriving DecidableEq

/-- The observable outcome of one `Column.get` call: the returned label
(or the exception that escaped), the state afterwards, and how many times
`cache_status` was invoked. -/
structure GetOut where
  out : Except PyExc Line
  st : GitState
  refreshes : Nat

/-- `Column.get`, lines 52-62: the non-root tail.  An empty cache or no
cache match yields the empty label; otherwise the matched line's first
two characters are classified (`entry[1]` raises `IndexError` on a
one-character entry) and the configured glyph is formatted.  This path
never mutates the state. -/
def getTail (cfg : Config) (st : GitState) (cand : Candidate) : GetOut :=
  let dflt := format [] cfg.column_length
  if st.cache = [] then ⟨.ok dflt, st, 0⟩
  else
    let entry := find_in_cache st.git_root st.cache cand
    if entry = [] then ⟨.ok dflt, st, 0⟩
    else
      match entry with
      | e0 :: e1 :: _ =>
        ⟨.ok (format (cfg.indicators.lookup (get_indicator_name e0 e1)) cfg.column_length),
          st, 0⟩
      | _ => ⟨.error .indexError, st, 0⟩

/-- `Column.get` (git.py lines 37-62).  For a root candidate whose path
starts with the cached root, the empty label is returned unchanged.
Otherwise `find_git_root` runs; the string it returns is a freshly
allocated object, compared with the cached root by `is not` (object
identity, `pyIsNot`).  When the identity test fires, the root is replaced
and `cache_status` runs; when it does not (both values `None`), control
falls through to the non-root tail.  Non-root candidates go straight to
the tail.  (The `echomsg` on lines 44-46 writes a message to the editor
and touches neither the cache nor the root; it is outside the modelled
state.) -/
def Column.get (cfg : Config) (st : GitState) (cand : Candidate) (env : Env) : GetOut :=
  let dflt := format [] cfg.column_length
  if cand.is_root then
    if (match st.git_root with
        | some r => r.val.isPrefixOf cand.action__path
        | none => false) then
      ⟨.ok dflt, st, 0⟩
    else
      match find_git_root env.rootQuery with
      | .error e => ⟨.error e, st, 0⟩
      | .ok resolved =>
        let newRoot : Option PyStr := resolved.map (fun v => ⟨st.nextId, v⟩)
        let st1 : GitState :=
          { st with nextId := st.nextId + (match resolved with | some _ => 1 | none => 0) }
        if pyIsNot newRoot st1.git_root then
          let (res, newCache) := cache_status env.statusQuery st1.cache
          let st2 : GitState := { st1 with git_root := newRoot, cache := newCache }
          match res with
          | .error e => ⟨.error e, st2, 1⟩
          | .ok _ => ⟨.ok dflt, st2, 1⟩
        else
          getTail cfg st1 cand
  else
    getTail cfg st cand

/-! ### Helper lemmas -/

/-- The classifier always lands in the closed seven-name enumeration. -/
theorem get_indicator_name_mem (us them : Char) :
    get_indicator_name us them ∈ indicatorNames := by
  unfold get_indicator_name indicatorNames
  split_ifs <;> simp

/-- Every line's tier is 0, 1 or 2. -/
theorem tier_le_two (s : Line) : tier s ≤ 2 := by
  unfold tier
  split_ifs <;> omega

/-- The tier verdict `-1` characterised. -/
theorem cmpTier_lt_iff (ta tb : Nat) :
    cmpTier ta tb < 0 ↔ (ta = 0 ∨ (ta = 1 ∧ tb ≠ 0)) := by
  unfold cmpTier
  split_ifs <;> omega

/-- A strictly smaller comparator verdict forces a lower-or-equal tier. -/
theorem cmpTier_lt_le {ta tb : Nat} (h : cmpTier ta tb < 0) : ta ≤ tb := by
  rw [cmpTier_lt_iff] at h
  omega

/-- A non-negative comparator verdict forces the other inequality, given
both tiers are in range. -/
theorem cmpTier_ge_le {ta tb : Nat} (hta : ta ≤ 2) (htb : tb ≤ 2)
    (h : ¬ cmpTier ta tb < 0) : tb ≤ ta := by
  rw [cmpTier_lt_iff] at h
  push_neg at h
  omega

/-- On well-formed lines (presented in `cons` form) the comparator never
raises and decides exactly by tier. -/
theorem sort_eq_cmpTier (a0 a1 b0 b1 : Char) (ta tb : Line) :
    sort (a0 :: a1 :: ta) (b0 :: b1 :: tb) =
      .ok (cmpTier (tier (a0 :: a1 :: ta)) (tier (b0 :: b1 :: tb))) := by
  simp only [sort, charAt, tier, cmpTier, List.get?, List.getD, bind, Except.bind,
    pure, Except.pure]
  by_cases h0 : a0 = 'U' <;> by_cases h1 : a1 = 'U' <;>
    by_cases h2 : a0 = 'M' <;> by_cases h3 : a1 = 'M' <;>
    by_cases h4 : b0 = 'U' <;> by_cases h5 : b1 = 'U' <;>
    simp_all <;> split_ifs <;> simp_all

/-- Lines of length at least two split into two code characters and a
remainder. -/
theorem wfLine_cons {s : Line} (h : wfLine s) :
    ∃ c0 c1 t, s = c0 :: c1 :: t := by
  match s, h with
  | c0 :: c1 :: t, _ => exact ⟨c0, c1, t, rfl⟩

/-- The comparator succeeds with the tier verdict on any two well-formed
lines. -/
theorem sort_ok {a b : Line} (ha : wfLine a) (hb : wfLine b) :
    sort a b = .ok (cmpTier (tier a) (tier b)) := by
  obtain ⟨a0, a1, ta, rfl⟩ := wfLine_cons ha
  obtain ⟨b0, b1, tb, rfl⟩ := wfLine_cons hb
  exact sort_eq_cmpTier a0 a1 b0 b1 ta tb

/-! ### Claim C1 -/

/-- C1: for every pair of status-code characters, `get_indicator_name`
returns exactly one of the seven categories, is total, and agrees with
the spec's seven precedence rules evaluated in order; in particular
`('A','A')` classifies as `Staged` because rule 3 precedes rule 6. -/
theorem C1_classify_total_and_ordered (us them : Char) :
    get_indicator_name us them ∈ indicatorNames ∧
    get_indicator_name us them = specClassify us them ∧
    get_indicator_name 'A' 'A' = "Staged" := by
  refine ⟨get_indicator_name_mem us them, ?_, rfl⟩
  unfold get_indicator_name specClassify
  simp only [List.mem_cons, List.not_mem_nil, or_false]

/-! ### Tier-sortedness of the sort model -/

/-- Index-monotonicity of tiers: the sortedness invariant maintained by
the binary insertion phase. -/
def Mono (arr : List Line) : Prop :=
  ∀ i j, i ≤ j → j < arr.length → tier (arr.getD i []) ≤ tier (arr.getD j [])

/-- The descending arm of `count_run` returns a strictly descending chain
and the untouched remainder. -/
theorem descChain_ok (l : List Line) :
    ∀ prev, (∀ s ∈ l, wfLine s) → wfLine prev →
    ∃ chain rest, descChain prev l = .ok (chain, rest) ∧ l = chain ++ rest ∧
      List.Chain' (fun a b => cmpTier (tier b) (tier a) < 0) (prev :: chain) := by
  induction l with
  | nil =>
    intro prev _ _
    exact ⟨[], [], rfl, rfl, List.chain'_singleton prev⟩
  | cons y t ih =>
    intro prev hw hp
    have hy : wfLine y := hw y (List.mem_cons_self y t)
    have hcmp := sort_ok hy hp
    by_cases hc : cmpTier (tier y) (tier prev) < 0
    · obtain ⟨chain, rest, h1, h2, h3⟩ :=
        ih y (fun s hs => hw s (List.mem_cons_of_mem y hs)) hy
      refine ⟨y :: chain, rest, ?_, by simp [h2], ?_⟩
      · simp [descChain, hcmp, hc, h1, bind, Except.bind, pure, Except.pure]
      · exact List.chain'_cons.mpr ⟨hc, h3⟩
    · refine ⟨[], y :: t, ?_, rfl, List.chain'_singleton prev⟩
      simp [descChain, hcmp, hc, bind, Except.bind, pure, Except.pure]

/-- The ascending arm of `count_run` returns a tier-nondecreasing chain
and the untouched remainder. -/
theorem ascChain_ok (l : List Line) :
    ∀ prev, (∀ s ∈ l, wfLine s) → wfLine prev →
    ∃ chain rest, ascChain prev l = .ok (chain, rest) ∧ l = chain ++ rest ∧
      List.Chain' (fun a b => tier a ≤ tier b) (prev :: chain) := by
  induction l with
  | nil =>
    intro prev _ _
    exact ⟨[], [], rfl, rfl, List.chain'_singleton prev⟩
  | cons y t ih =>
    intro prev hw hp
    have hy : wfLine y := hw y (List.mem_cons_self y t)
    have hcmp := sort_ok hy hp
    by_cases hc : cmpTier (tier y) (tier prev) < 0
    · refine ⟨[], y :: t, ?_, rfl, List.chain'_singleton prev⟩
      simp [ascChain, hcmp, hc, bind, Except.bind, pure, Except.pure]
    · obtain ⟨chain, rest, h1, h2, h3⟩ :=
        ih y (fun s hs => hw s (List.mem_cons_of_mem y hs)) hy
      refine ⟨y :: chain, rest, ?_, by simp [h2], ?_⟩
      · simp [ascChain, hcmp, hc, h1, bind, Except.bind, pure, Except.pure]
      · exact List.chain'_cons.mpr
          ⟨cmpTier_ge_le (tier_le_two y) (tier_le_two prev) hc, h3⟩

/-- `count_run` succeeds on well-formed lines with a tier-nondecreasing
initial run whose concatenation with the remainder is a permutation of
the input. -/
theorem countRun_ok (l : List Line) (hw : ∀ s ∈ l, wfLine s) :
    ∃ run rest, countRun l = .ok (run, rest) ∧ (run ++ rest).Perm l ∧
      List.Chain' (fun a b => tier a ≤ tier b) run := by
  match l with
  | [] => exact ⟨[], [], rfl, List.Perm.refl _, List.chain'_nil⟩
  | [x] => exact ⟨[x], [], rfl, List.Perm.refl _, List.chain'_singleton x⟩
  | x0 :: x1 :: rest =>
    have h0 : wfLine x0 := hw x0 (by simp)
    have h1 : wfLine x1 := hw x1 (by simp)
    have hrest : ∀ s ∈ rest, wfLine s := fun s hs => hw s (by simp [hs])
    have hcmp := sort_ok h1 h0
    by_cases hc : cmpTier (tier x1) (tier x0) < 0
    · obtain ⟨chain, rest', hd1, hd2, hd3⟩ := descChain_ok rest x1 hrest h1
      refine ⟨(x0 :: x1 :: chain).reverse, rest', ?_, ?_, ?_⟩
      · simp [countRun, hcmp, hc, hd1, bind, Except.bind, pure, Except.pure]
      · subst hd2
        exact (List.reverse_perm (x0 :: x1 :: chain)).append_right rest'
      · rw [List.chain'_reverse]
        have hch : List.Chain' (fun a b => cmpTier (tier b) (tier a) < 0)
            (x0 :: x1 :: chain) := List.chain'_cons.mpr ⟨hc, hd3⟩
        exact hch.imp fun a b h => cmpTier_lt_le h
    · obtain ⟨chain, rest', ha1, ha2, ha3⟩ := ascChain_ok rest x1 hrest h1
      refine ⟨x0 :: x1 :: chain, rest', ?_, ?_, ?_⟩
      · simp [countRun, hcmp, hc, ha1, bind, Except.bind, pure, Except.pure]
      · subst ha2
        exact List.Perm.refl _
      · exact List.chain'_cons.mpr
          ⟨cmpTier_ge_le (tier_le_two x1) (tier_le_two x0) hc, ha3⟩

/-- Elements of a list accessed through `getD` at in-range indices are
members. -/
theorem getD_mem {arr : List Line} {k : Nat} (hk : k < arr.length) :
    arr.getD k [] ∈ arr := by
  rw [List.getD_eq_getElem _ _ hk]
  exact List.getElem_mem hk

/-- The search predicate `pivot sorts strictly before arr[k]` is monotone
along a tier-monotone array. -/
theorem searchPred_mono {arr : List Line} {pivot : Line} (hm : Mono arr)
    {k k' : Nat} (hkk : k ≤ k') (hk' : k' < arr.length)
    (h : cmpTier (tier pivot) (tier (arr.getD k [])) < 0) :
    cmpTier (tier pivot) (tier (arr.getD k' [])) < 0 := by
  have ht := hm k k' hkk hk'
  rw [cmpTier_lt_iff] at h ⊢
  omega

/-- The binary search of `binarysort` finds, in a tier-monotone array, the
boundary index: everything before it does not strictly dominate the pivot,
everything from it to the right end of the window does. -/
theorem binsearchAux_ok {arr : List Line} {pivot : Line}
    (hw : ∀ s ∈ arr, wfLine s) (hp : wfLine pivot) (hm : Mono arr) :
    ∀ fuel l r, r - l ≤ fuel → l ≤ r → r ≤ arr.length →
    ∃ i, binsearchAux arr pivot fuel l r = .ok i ∧ l ≤ i ∧ i ≤ r ∧
      (∀ k, l ≤ k → k < i → ¬ cmpTier (tier pivot) (tier (arr.getD k [])) < 0) ∧
      (∀ k, i ≤ k → k < r → cmpTier (tier pivot) (tier (arr.getD k [])) < 0) := by
  intro fuel
  induction fuel with
  | zero =>
    intro l r hfuel hlr hr
    have : l = r := by omega
    subst this
    exact ⟨l, rfl, le_refl l, le_refl l, fun k h1 h2 => by omega, fun k h1 h2 => by omega⟩
  | succ fuel ih =>
    intro l r hfuel hlr hr
    by_cases hlt : l < r
    · have hplt : l + (r - l) / 2 < r := by
        have := Nat.div_lt_self (by omega : 0 < r - l) (by omega : 1 < 2)
        omega
      have hple : l ≤ l + (r - l) / 2 := by omega
      have hplen : l + (r - l) / 2 < arr.length := by omega
      have hwp : wfLine (arr.getD (l + (r - l) / 2) []) := hw _ (getD_mem hplen)
      have hcmp := sort_ok hp hwp
      by_cases hc : cmpTier (tier pivot) (tier (arr.getD (l + (r - l) / 2) [])) < 0
      · have hhalf : (l + (r - l) / 2) - l ≤ fuel := by
          have := Nat.div_lt_self (by omega : 0 < r - l) (by omega : 1 < 2)
          omega
        obtain ⟨i, h1, h2, h3, h4, h5⟩ := ih l (l + (r - l) / 2) hhalf hple (by omega)
        refine ⟨i, ?_, h2, by omega, h4, ?_⟩
        · simp only [binsearchAux, if_pos hlt]
          rw [hcmp]
          simp only [bind, Except.bind, if_pos hc]
          exact h1
        · intro k hik hkr
          by_cases hkp : k < l + (r - l) / 2
          · exact h5 k hik hkp
          · exact searchPred_mono hm (by omega) (by omega) hc
      · have hhalf : r - (l + (r - l) / 2 + 1) ≤ fuel := by omega
        obtain ⟨i, h1, h2, h3, h4, h5⟩ :=
          ih (l + (r - l) / 2 + 1) r hhalf (by omega) hr
        refine ⟨i, ?_, by omega, h3, ?_, h5⟩
        · simp only [binsearchAux, if_pos hlt]
          rw [hcmp]
          simp only [bind, Except.bind, if_neg hc]
          exact h1
        · intro k hlk hki
          by_cases hkp : l + (r - l) / 2 + 1 ≤ k
          · exact h4 k hkp hki
          · intro hcon
            exact hc (searchPred_mono hm (by omega) hplen hcon)
    · have : l = r := by omega
      subst this
      refine ⟨l, ?_, le_refl l, le_refl l, fun k h1 h2 => by omega, fun k h1 h2 => by omega⟩
      simp only [binsearchAux, if_neg hlt, pure, Except.pure]

/-- `insertIdx` always lengthens the list by one. -/
theorem insertIdx_length (l : List Line) (n : Nat) (x : Line) :
    (insertIdx l n x).length = l.length + 1 := by
  induction l generalizing n with
  | nil => cases n <;> rfl
  | cons y t ih =>
    cases n with
    | zero => rfl
    | succ n => simp [insertIdx, ih n]

/-- `getD` through an insertion at index `n ≤ length`: positions below
`n` read the old list, position `n` reads the inserted element, positions
above read the old list shifted by one. -/
theorem insertIdx_getD (l : List Line) (n : Nat) (x : Line) (k : Nat)
    (hn : n ≤ l.length) :
    (insertIdx l n x).getD k [] =
      if k < n then l.getD k [] else if k = n then x else l.getD (k - 1) [] := by
  induction l generalizing n k with
  | nil =>
    have : n = 0 := by simpa using hn
    subst this
    cases k <;> simp [insertIdx]
  | cons y t ih =>
    cases n with
    | zero =>
      cases k with
      | zero => simp [insertIdx]
      | succ k => simp [insertIdx]
    | succ n =>
      have hn' : n ≤ t.length := by simpa using hn
      cases k with
      | zero => simp [insertIdx]
      | succ k =>
        simp only [insertIdx, List.getD_cons_succ, ih n k hn']
        rcases Nat.lt_trichotomy k n with h1 | h1 | h1
        · simp [h1, Nat.succ_lt_succ h1]
        · subst h1
          simp
        · have h3 : ¬ k < n := by omega
          have h4 : k ≠ n := by omega
          have h5 : ¬ k + 1 < n + 1 := by omega
          have h6 : k + 1 ≠ n + 1 := by omega
          obtain ⟨m, rfl⟩ : ∃ m, k = m + 1 := ⟨k - 1, by omega⟩
          simp [h3, h4, h5, h6]

/-- Inserting is a permutation-respecting cons. -/
theorem insertIdx_perm (l : List Line) (n : Nat) (x : Line) :
    (insertIdx l n x).Perm (x :: l) := by
  induction l generalizing n with
  | nil => cases n <;> exact List.Perm.refl _
  | cons y t ih =>
    cases n with
    | zero => exact List.Perm.refl _
    | succ n => exact ((ih n).cons y).trans (List.Perm.swap x y t)

/-- Inserting the pivot at the boundary the binary search found keeps the
array tier-monotone. -/
theorem mono_insert {arr : List Line} {x : Line} {i : Nat}
    (hi : i ≤ arr.length) (hm : Mono arr)
    (hbefore : ∀ k, k < i → ¬ cmpTier (tier x) (tier (arr.getD k [])) < 0)
    (hafter : ∀ k, i ≤ k → k < arr.length →
      cmpTier (tier x) (tier (arr.getD k [])) < 0) :
    Mono (insertIdx arr i x) := by
  intro j k hjk hk
  rw [insertIdx_length] at hk
  rw [insertIdx_getD arr i x j hi, insertIdx_getD arr i x k hi]
  have hxle : ∀ m, i ≤ m → m < arr.length → tier x ≤ tier (arr.getD m []) :=
    fun m h1 h2 => cmpTier_lt_le (hafter m h1 h2)
  have hlex : ∀ m, m < i → tier (arr.getD m []) ≤ tier x := fun m h1 =>
    cmpTier_ge_le (tier_le_two x) (tier_le_two _) (hbefore m h1)
  split_ifs <;>
    first
      | omega
      | exact le_refl _
      | exact hm _ _ (by omega) (by omega)
      | exact hlex _ (by omega)
      | exact hxle _ (by omega) (by omega)

/-- A tier-nondecreasing chain is index-monotone. -/
theorem chain'_tle_mono {run : List Line}
    (h : List.Chain' (fun a b => tier a ≤ tier b) run) : Mono run := by
  haveI : IsTrans Line (fun a b => tier a ≤ tier b) :=
    ⟨fun _ _ _ hab hbc => le_trans hab hbc⟩
  rw [List.chain'_iff_pairwise, List.pairwise_iff_getElem] at h
  intro i j hij hj
  rcases Nat.eq_or_lt_of_le hij with rfl | hlt
  · exact le_refl _
  · rw [List.getD_eq_getElem _ _ (by omega), List.getD_eq_getElem _ _ hj]
    exact h i j (by omega) hj hlt

/-- An index-monotone list is tier-nondecreasing pairwise. -/
theorem mono_pairwise {out : List Line} (h : Mono out) :
    List.Pairwise (fun a b => tier a ≤ tier b) out := by
  rw [List.pairwise_iff_getElem]
  intro i j hi hj hij
  have hd := h i j (by omega) hj
  rwa [List.getD_eq_getElem _ _ hi, List.getD_eq_getElem _ _ hj] at hd

/-- The binary insertion phase of the sort succeeds on well-formed lines,
keeps the accumulator tier-monotone, and permutes its inputs. -/
theorem binsortLoop_ok (rest : List Line) :
    ∀ acc, (∀ s ∈ acc, wfLine s) → (∀ s ∈ rest, wfLine s) → Mono acc →
    ∃ out, binsortLoop acc rest = .ok out ∧ Mono out ∧ out.Perm (acc ++ rest) := by
  induction rest with
  | nil =>
    intro acc _ _ hm
    exact ⟨acc, rfl, hm, by simp⟩
  | cons x rest' ih =>
    intro acc hacc hrest hm
    have hx : wfLine x := hrest x (List.mem_cons_self x rest')
    obtain ⟨i, h1, h2, h3, h4, h5⟩ :=
      binsearchAux_ok hacc hx hm acc.length 0 acc.length (by omega) (by omega) (le_refl _)
    have hmono2 : Mono (insertIdx acc i x) :=
      mono_insert h3 hm (fun k hk => h4 k (Nat.zero_le k) hk) h5
    have hwf2 : ∀ s ∈ insertIdx acc i x, wfLine s := by
      intro s hs
      have hs2 : s ∈ x :: acc := (insertIdx_perm acc i x).mem_iff.mp hs
      rcases List.mem_cons.mp hs2 with rfl | hs3
      · exact hx
      · exact hacc s hs3
    obtain ⟨out, g1, g2, g3⟩ :=
      ih (insertIdx acc i x) hwf2 (fun s hs => hrest s (List.mem_cons_of_mem x hs)) hmono2
    refine ⟨out, ?_, g2, ?_⟩
    · simp only [binsortLoop, binsearchPos]
      rw [h1]
      simp only [bind, Except.bind]
      exact g1
    · have p1 : (insertIdx acc i x ++ rest').Perm ((x :: acc) ++ rest') :=
        (insertIdx_perm acc i x).append_right rest'
      exact g3.trans (p1.trans List.perm_middle.symm)

/-! ### Claim C2 -/

/-- Stated from the claim's words: the stable three-tier sort the claim
describes — all `'U'`-flagged lines first, then the remaining
`'M'`-flagged lines, then the rest, each tier in original input order. -/
def stableTierSort (l : List Line) : List Line :=
  l.filter (fun s => tier s == 0) ++ l.filter (fun s => tier s == 1) ++
    l.filter (fun s => tier s == 2)

/-- C2 counterexample: on the spec's own three-line example the code's
sort puts `" M c.txt"` before `"M  a.txt"`, whereas the claimed stable
tier sort keeps the original order `"M  a.txt"` before `" M c.txt"`
within the `'M'` tier, so the two disagree: stability does not hold. -/
theorem C2_counterexample_stability :
    pySorted ["M  a.txt".data, "UU b.txt".data, " M c.txt".data] =
      .ok ["UU b.txt".data, " M c.txt".data, "M  a.txt".data] ∧
    stableTierSort ["M  a.txt".data, "UU b.txt".data, " M c.txt".data] =
      ["UU b.txt".data, "M  a.txt".data, " M c.txt".data] ∧
    (["UU b.txt".data, " M c.txt".data, "M  a.txt".data] : List Line) ≠
      ["UU b.txt".data, "M  a.txt".data, " M c.txt".data] :=
  ⟨rfl, rfl, by decide⟩

/-- C2 amended: sorting any list of well-formed status lines (each of
length at least two) succeeds and produces a permutation of the input in
which tiers never decrease — every line whose index or worktree code is
`'U'` comes before every line that is `'M'`-flagged but not `'U'`-flagged,
which comes before every line that is neither.  The original input order
within a tier is, however, not preserved in general (see the
counterexample). -/
theorem C2_amended_sort_tiers (l : List Line) (hw : ∀ s ∈ l, wfLine s) :
    ∃ out, pySorted l = .ok out ∧ out.Perm l ∧
      List.Pairwise (fun a b => tier a ≤ tier b) out := by
  obtain ⟨run, rest, h1, h2, h3⟩ := countRun_ok l hw
  have hrunwf : ∀ s ∈ run, wfLine s := fun s hs => hw s (h2.subset (by simp [hs]))
  have hrestwf : ∀ s ∈ rest, wfLine s := fun s hs => hw s (h2.subset (by simp [hs]))
  obtain ⟨out, g1, g2, g3⟩ := binsortLoop_ok rest run hrunwf hrestwf (chain'_tle_mono h3)
  refine ⟨out, ?_, g3.trans h2, mono_pairwise g2⟩
  simp only [pySorted]
  rw [h1]
  simp only [bind, Except.bind]
  exact g1

/-- C2 amended, witness: the three-line example consists of well-formed
lines, and the amended theorem applies to it. -/
theorem C2_amended_sort_tiers_witness :
    (∀ s ∈ (["M  a.txt".data, "UU b.txt".data, " M c.txt".data] : List Line), wfLine s) ∧
    ∃ out, pySorted ["M  a.txt".data, "UU b.txt".data, " M c.txt".data] = .ok out ∧
      out.Perm ["M  a.txt".data, "UU b.txt".data, " M c.txt".data] ∧
      List.Pairwise (fun a b => tier a ≤ tier b) out :=
  ⟨by decide, C2_amended_sort_tiers _ (by decide)⟩

/-! ### Claims C3 and C4: find_in_cache -/

/-- Whether `pat` occurs as a contiguous substring of `s`. -/
def occursInB (pat s : Line) : Bool :=
  (List.range (s.length + 1)).any (fun i => pat.isPrefixOf (s.drop i))

/-- The scan never alters the empty string. -/
theorem removeAllAux_nil (fuel : Nat) (pat : Line) :
    removeAllAux fuel pat [] = [] := by
  cases fuel <;> rfl

/-- The scan's fuel is irrelevant once it covers the string's length. -/
theorem removeAllAux_fuel (pat : Line) :
    ∀ f1 f2 s, s.length ≤ f1 → s.length ≤ f2 →
    removeAllAux f1 pat s = removeAllAux f2 pat s := by
  intro f1
  induction f1 with
  | zero =>
    intro f2 s h1 _
    have hs : s = [] := List.eq_nil_of_length_eq_zero (by omega)
    subst hs
    rw [removeAllAux_nil, removeAllAux_nil]
  | succ f1 ih =>
    intro f2 s h1 h2
    cases s with
    | nil => rw [removeAllAux_nil, removeAllAux_nil]
    | cons c t =>
      obtain ⟨f2', rfl⟩ : ∃ f2', f2 = f2' + 1 := by
        cases f2
        · simp at h2
        · exact ⟨_, rfl⟩
      simp only [removeAllAux]
      by_cases hc : pat ≠ [] ∧ pat.isPrefixOf (c :: t)
      · rw [if_pos hc, if_pos hc]
        have hpat : 1 ≤ pat.length := by
          cases pat
          · exact absurd rfl hc.1
          · simp
        apply ih
        · simp only [List.length_drop, List.length_cons] at *
          omega
        · simp only [List.length_drop, List.length_cons] at *
          omega
      · rw [if_neg hc, if_neg hc]
        exact congrArg (c :: ·) (ih f2' t (by simp at h1; omega) (by simp at h2; omega))

/-- Deleting the pattern from a string that starts with it consumes that
leading occurrence. -/
theorem removeAll_append (pat rest : Line) (hp : pat ≠ []) :
    removeAll pat (pat ++ rest) = removeAll pat rest := by
  cases pat with
  | nil => exact absurd rfl hp
  | cons p0 pt =>
    show removeAllAux ((p0 :: pt) ++ rest).length (p0 :: pt) ((p0 :: pt) ++ rest) =
      removeAll (p0 :: pt) rest
    have hlen : ((p0 :: pt) ++ rest).length = (pt.length + rest.length) + 1 := by
      simp
    rw [hlen]
    simp only [removeAllAux, List.cons_append]
    have hcond : (p0 :: pt) ≠ [] ∧ (p0 :: pt).isPrefixOf (p0 :: (pt ++ rest)) = true :=
      ⟨by simp, by simp⟩
    rw [if_pos hcond]
    have hdrop : (p0 :: (pt ++ rest)).drop (p0 :: pt).length = rest := by simp
    rw [hdrop]
    exact removeAllAux_fuel _ _ _ rest (by omega) (le_refl _)

/-- A string with no occurrence of the pattern passes through an
occurrence-free head character. -/
theorem occursInB_cons_false {pat : Line} {c : Char} {t : Line}
    (h : occursInB pat (c :: t) = false) :
    pat.isPrefixOf (c :: t) = false ∧ occursInB pat t = false := by
  simp only [occursInB, List.any_eq_false, List.mem_range] at h
  constructor
  · have h0 := h 0 (by simp)
    rw [List.drop_zero] at h0
    exact Bool.eq_false_iff.mpr h0
  · rw [occursInB, List.any_eq_false]
    intro i hi
    rw [List.mem_range] at hi
    have hs := h (i + 1) (by simp only [List.length_cons]; omega)
    rw [List.drop_succ_cons] at hs
    exact hs

/-- Deleting a pattern that does not occur in a string leaves it
unchanged. -/
theorem removeAll_no_occur (pat : Line) :
    ∀ s, occursInB pat s = false → removeAll pat s = s := by
  intro s
  induction s with
  | nil => intro _; rfl
  | cons c t ih =>
    intro hocc
    obtain ⟨h0, h1⟩ := occursInB_cons_false hocc
    show removeAllAux (t.length + 1) pat (c :: t) = c :: t
    simp only [removeAllAux]
    rw [if_neg (by simp [h0])]
    exact congrArg (c :: ·) (ih h1)

/-- Modelled after the spec's words (§4.4 lookup): compute the path
relative to the root by stripping exactly the leading `root ++ "/"`
prefix (leaving the remainder unchanged), append a trailing `'/'` for
directories, and return the first snapshot line whose path field starts
with the result.  To be compared with `find_in_cache`, which is
translated from the source. -/
def specLookup (rootVal : Line) (cache : List Line) (cand : Candidate) : Line :=
  let rel :=
    if (rootVal ++ ['/']).isPrefixOf cand.action__path then
      cand.action__path.drop (rootVal.length + 1)
    else cand.action__path
  let rel2 := rel ++ (if cand.is_directory then ['/'] else [])
  findFirst cache rel2

/-- C3 counterexample: with root `"/r"` and candidate file path
`"/r/a/r/b"`, Python's replace-all deletes the inner `"/r/"` as well,
yielding relative path `"ab"`, so the code misses the snapshot line for
`"a/r/b"`, whereas the claimed strip-leading-prefix lookup finds it. -/
theorem C3_counterexample_replace_all :
    find_in_cache (some ⟨0, "/r".data⟩) [" M a/r/b".data]
      ⟨"/r/a/r/b".data, false, false⟩ = [] ∧
    specLookup "/r".data [" M a/r/b".data] ⟨"/r/a/r/b".data, false, false⟩ =
      " M a/r/b".data ∧
    removeAll "/r/".data "/r/a/r/b".data = "ab".data ∧
    ([] : Line) ≠ " M a/r/b".data :=
  ⟨rfl, rfl, rfl, by decide⟩

/-- C3 amended: `find_in_cache` computes the relative path by deleting
every occurrence of `root ++ "/"` from the candidate path.  Whenever that
pattern occurs only as the leading prefix — in particular for every
candidate path of the form `root ++ "/" ++ rest` with no further
occurrence inside `rest` — this agrees with the spec's
strip-exactly-the-leading-prefix lookup, with the trailing `'/'` appended
exactly for directories and the first prefix-matching line of the
(severity-sorted) snapshot returned; the result is empty on an empty
snapshot. -/
theorem C3_amended_lookup (rootVal rest : Line) (cache : List Line)
    (isDir : Bool) (rid : Nat)
    (hocc : occursInB (rootVal ++ ['/']) rest = false) :
    find_in_cache (some ⟨rid, rootVal⟩) cache ⟨rootVal ++ '/' :: rest, isDir, false⟩ =
      specLookup rootVal cache ⟨rootVal ++ '/' :: rest, isDir, false⟩ ∧
    find_in_cache (some ⟨rid, rootVal⟩) [] ⟨rootVal ++ '/' :: rest, isDir, false⟩ = [] := by
  have hpat : (rootVal ++ ['/'] : Line) ≠ [] := by simp
  have hrel : removeAll (rootVal ++ ['/']) (rootVal ++ '/' :: rest) = rest := by
    have happ : rootVal ++ '/' :: rest = (rootVal ++ ['/']) ++ rest := by simp
    rw [happ, removeAll_append _ _ hpat, removeAll_no_occur _ _ hocc]
  have hstrip : specLookup rootVal cache ⟨rootVal ++ '/' :: rest, isDir, false⟩ =
      findFirst cache (rest ++ (if isDir then ['/'] else [])) := by
    unfold specLookup
    rw [if_pos ?_]
    · have hdrop : (rootVal ++ '/' :: rest).drop (rootVal.length + 1) = rest := by
        have happ : rootVal ++ '/' :: rest = (rootVal ++ ['/']) ++ rest := by simp
        rw [happ]
        simp
      rw [hdrop]
    · rw [List.isPrefixOf_iff_prefix]
      exact ⟨rest, by simp⟩
  constructor
  · unfold find_in_cache reprOptRoot
    rw [hrel, hstrip]
  · unfold find_in_cache reprOptRoot
    rw [hrel]
    rfl

/-- C3 amended, witness: root `"/repo"`, directory candidate
`"/repo/dir"`, snapshot holding a line for `"dir/sub/file.txt"`; the
code's lookup and the spec's strip-prefix lookup agree and both match the
line under the directory. -/
theorem C3_amended_lookup_witness :
    occursInB ("/repo".data ++ ['/']) "dir".data = false ∧
    find_in_cache (some ⟨0, "/repo".data⟩) ["?? dir/sub/file.txt".data]
      ⟨"/repo".data ++ '/' :: "dir".data, true, false⟩ =
      specLookup "/repo".data ["?? dir/sub/file.txt".data]
        ⟨"/repo".data ++ '/' :: "dir".data, true, false⟩ ∧
    find_in_cache (some ⟨0, "/repo".data⟩) ["?? dir/sub/file.txt".data]
      ⟨"/repo".data ++ '/' :: "dir".data, true, false⟩ = "?? dir/sub/file.txt".data :=
  ⟨by decide, (C3_amended_lookup "/repo".data "dir".data
    ["?? dir/sub/file.txt".data] true 0 (by decide)).1, rfl⟩

/-- C4 counterexample: the file candidate (no trailing separator) whose
repo-relative name is `"dir"` matches the snapshot line for
`"dirty.txt"`, because the scan tests a bare string prefix. -/
theorem C4_counterexample_file_prefix :
    find_in_cache (some ⟨0, "/repo".data⟩) ["?? dirty.txt".data]
      ⟨"/repo/dir".data, false, false⟩ = "?? dirty.txt".data ∧
    ("?? dirty.txt".data : Line) ≠ [] :=
  ⟨rfl, by decide⟩

/-- C4 amended: a file candidate (`is_directory = false`) matches any
snapshot line whose path field merely extends its relative name as a
string — the head line is returned whenever the relative name is a string
prefix of that line's path field, exact or not. -/
theorem C4_amended_string_prefix (root : Option PyStr) (cache : List Line)
    (cand : Candidate) (line : Line)
    (hfile : cand.is_directory = false)
    (hpre : (removeAll (reprOptRoot root ++ ['/']) cand.action__path).isPrefixOf
      (line.drop 3) = true) :
    find_in_cache root (line :: cache) cand = line := by
  unfold find_in_cache findFirst
  rw [hfile]
  simp only [if_neg Bool.false_ne_true, List.append_nil]
  rw [if_pos hpre]

/-- C4 amended, witness: the `"dir"`-vs-`"dirty.txt"` instance. -/
theorem C4_amended_string_prefix_witness :
    (removeAll (reprOptRoot (some ⟨0, "/repo".data⟩) ++ ['/']) "/repo/dir".data).isPrefixOf
      ("?? dirty.txt".data.drop 3) = true ∧
    find_in_cache (some ⟨0, "/repo".data⟩) ["?? dirty.txt".data]
      ⟨"/repo/dir".data, false, false⟩ = "?? dirty.txt".data :=
  ⟨by decide, C4_amended_string_prefix (some ⟨0, "/repo".data⟩) []
    ⟨"/repo/dir".data, false, false⟩ "?? dirty.txt".data rfl (by decide)⟩

/-! ### Claims C8 and C9: the resolver -/

/-- Left-justification pads to exactly the configured width whenever the
content fits. -/
theorem format_length {g : Line} {w : Nat} (h : g.length ≤ w) :
    (format g w).length = w := by
  simp only [format, List.length_append, List.length_replicate]
  omega

/-- The non-root tail of `Column.get` never mutates the state and never
refreshes. -/
theorem getTail_shape (cfg : Config) (st : GitState) (cand : Candidate) :
    ∃ o, getTail cfg st cand = ⟨o, st, 0⟩ := by
  simp only [getTail]
  split
  · exact ⟨_, rfl⟩
  · split
    · exact ⟨_, rfl⟩
    · split
      · exact ⟨_, rfl⟩
      · exact ⟨_, rfl⟩

/-- Every successful label of the non-root tail is a left-justified glyph
or the empty label. -/
theorem getTail_out (cfg : Config) (st : GitState) (cand : Candidate) (s : Line)
    (hok : (getTail cfg st cand).out = .ok s) :
    ∃ g, s = format g cfg.column_length ∧
      (g = [] ∨ ∃ name, name ∈ indicatorNames ∧ g = cfg.indicators.lookup name) := by
  by_cases hca : st.cache = []
  · simp only [getTail, if_pos hca] at hok
    exact ⟨[], by simpa using hok.symm, Or.inl rfl⟩
  · rcases hentry : find_in_cache st.git_root st.cache cand with _ | ⟨e0, _ | ⟨e1, tl⟩⟩ <;>
      simp only [getTail, hentry, if_neg hca] at hok
    · rw [if_pos trivial] at hok
      exact ⟨[], by simpa using hok.symm, Or.inl rfl⟩
    · rw [if_neg (by simp)] at hok
      simp at hok
    · rw [if_neg (by simp)] at hok
      exact ⟨cfg.indicators.lookup (get_indicator_name e0 e1), by simpa using hok.symm,
        Or.inr ⟨get_indicator_name e0 e1, get_indicator_name_mem e0 e1, rfl⟩⟩

/-- C8: resolving a non-root candidate is a pure read — it leaves the
state untouched, performs no refresh, and a second resolution of the same
candidate against the resulting state (under any environment, since this
path runs no external process) returns the same answer. -/
theorem C8_nonroot_pure (cfg : Config) (st : GitState) (cand : Candidate)
    (env env2 : Env) (h : cand.is_root = false) :
    (Column.get cfg st cand env).st = st ∧
    (Column.get cfg st cand env).refreshes = 0 ∧
    Column.get cfg (Column.get cfg st cand env).st cand env2 =
      Column.get cfg st cand env := by
  have h1 : ∀ e : Env, Column.get cfg st cand e = getTail cfg st cand := by
    intro e
    unfold Column.get
    rw [if_neg (by simp [h])]
  obtain ⟨o, ho⟩ := getTail_shape cfg st cand
  refine ⟨?_, ?_, ?_⟩
  · rw [h1 env, ho]
  · rw [h1 env, ho]
  · rw [h1 env, ho]
    show Column.get cfg st cand env2 = _
    rw [h1 env2, ho]

/-- C8 witness: a concrete non-root candidate with a cached snapshot. -/
theorem C8_nonroot_pure_witness :
    (Column.get (⟨⟨['?'], ['+'], ['s'], ['r'], ['i'], ['u'], ['k']⟩, 2, false⟩ : Config)
        (⟨some ⟨0, "/repo".data⟩, ["?? f.txt".data], 1⟩ : GitState)
        (⟨"/repo/f.txt".data, false, false⟩ : Candidate)
        (⟨.completed [], .completed []⟩ : Env)).st =
      (⟨some ⟨0, "/repo".data⟩, ["?? f.txt".data], 1⟩ : GitState) ∧
    (Column.get (⟨⟨['?'], ['+'], ['s'], ['r'], ['i'], ['u'], ['k']⟩, 2, false⟩ : Config)
        (⟨some ⟨0, "/repo".data⟩, ["?? f.txt".data], 1⟩ : GitState)
        (⟨"/repo/f.txt".data, false, false⟩ : Candidate)
        (⟨.completed [], .completed []⟩ : Env)).refreshes = 0 ∧
    Column.get (⟨⟨['?'], ['+'], ['s'], ['r'], ['i'], ['u'], ['k']⟩, 2, false⟩ : Config)
        (Column.get (⟨⟨['?'], ['+'], ['s'], ['r'], ['i'], ['u'], ['k']⟩, 2, false⟩ : Config)
          (⟨some ⟨0, "/repo".data⟩, ["?? f.txt".data], 1⟩ : GitState)
          (⟨"/repo/f.txt".data, false, false⟩ : Candidate)
          (⟨.completed [], .completed []⟩ : Env)).st
        (⟨"/repo/f.txt".data, false, false⟩ : Candidate)
        (⟨.completed [], .completed []⟩ : Env) =
      Column.get (⟨⟨['?'], ['+'], ['s'], ['r'], ['i'], ['u'], ['k']⟩, 2, false⟩ : Config)
        (⟨some ⟨0, "/repo".data⟩, ["?? f.txt".data], 1⟩ : GitState)
        (⟨"/repo/f.txt".data, false, false⟩ : Candidate)
        (⟨.completed [], .completed []⟩ : Env) :=
  C8_nonroot_pure _ _ _ _ _ rfl

/-- C9: every label `Column.get` successfully returns is a left-justified
string — a glyph selected from the configured mapping by one of the seven
category names, or the empty glyph — padded with spaces; whenever the
glyph fits in the configured column length the label's width is exactly
the configured column length. -/
theorem C9_label_fixed_width (cfg : Config) (st : GitState) (cand : Candidate)
    (env : Env) (s : Line) (hok : (Column.get cfg st cand env).out = .ok s) :
    ∃ g, s = format g cfg.column_length ∧
      (g = [] ∨ ∃ name, name ∈ indicatorNames ∧ g = cfg.indicators.lookup name) ∧
      (g.length ≤ cfg.column_length → s.length = cfg.column_length) := by
  have main : ∃ g, s = format g cfg.column_length ∧
      (g = [] ∨ ∃ name, name ∈ indicatorNames ∧ g = cfg.indicators.lookup name) := by
    simp only [Column.get] at hok
    split at hok
    · split at hok
      · exact ⟨[], by simpa using hok.symm, Or.inl rfl⟩
      · split at hok
        · simp at hok
        · split at hok
          · split at hok
            · simp at hok
            · exact ⟨[], by simpa using hok.symm, Or.inl rfl⟩
          · exact getTail_out cfg _ cand s hok
    · exact getTail_out cfg st cand s hok
  obtain ⟨g, hg, hmem⟩ := main
  exact ⟨g, hg, hmem, fun hle => by rw [hg]; exact format_length hle⟩

/-- C9 witness: an empty cache yields the all-spaces label of width 3. -/
theorem C9_label_fixed_width_witness :
    (Column.get (⟨⟨['?'], ['+'], ['s'], ['r'], ['i'], ['u'], ['k']⟩, 3, false⟩ : Config)
        (⟨none, [], 0⟩ : GitState) (⟨"/x".data, false, false⟩ : Candidate)
        (⟨.completed [], .completed []⟩ : Env)).out = .ok "   ".data ∧
    ∃ g, "   ".data =
        format g (⟨⟨['?'], ['+'], ['s'], ['r'], ['i'], ['u'], ['k']⟩, 3, false⟩ : Config).column_length ∧
      (g = [] ∨ ∃ name, name ∈ indicatorNames ∧
        g = (⟨⟨['?'], ['+'], ['s'], ['r'], ['i'], ['u'], ['k']⟩, 3, false⟩ : Config).indicators.lookup name) ∧
      (g.length ≤ (⟨⟨['?'], ['+'], ['s'], ['r'], ['i'], ['u'], ['k']⟩, 3, false⟩ : Config).column_length →
        ("   ".data : Line).length =
          (⟨⟨['?'], ['+'], ['s'], ['r'], ['i'], ['u'], ['k']⟩, 3, false⟩ : Config).column_length) :=
  ⟨rfl, C9_label_fixed_width
    (⟨⟨['?'], ['+'], ['s'], ['r'], ['i'], ['u'], ['k']⟩, 3, false⟩ : Config)
    (⟨none, [], 0⟩ : GitState) (⟨"/x".data, false, false⟩ : Candidate)
    (⟨.completed [], .completed []⟩ : Env) "   ".data rfl⟩

/-! ### Claims C5, C6, C7 and C10: root switching and refresh -/

/-- C5: evaluation of the code at the failing input.  The cached root has
value `"/repo"`; resolving a root candidate at `"/other"` yields a
freshly allocated string with the very same value `"/repo"`.  Because
line 47 compares with `is not` (object identity), the test fires anyway:
exactly one refresh runs and the root object is replaced, although the
resolved root does not differ as a value from the cached root — the claim
says this situation must trigger no refresh. -/
theorem C5_identity_comparison_refreshes_on_equal_value :
    find_git_root (Env.rootQuery ⟨.completed "/repo\n".data, .completed []⟩) =
      .ok (some "/repo".data) ∧
    (GitState.git_root ⟨some ⟨0, "/repo".data⟩, [], 1⟩).map PyStr.val =
      some "/repo".data ∧
    (Column.get (⟨⟨[], [], [], [], [], [], []⟩, 1, false⟩ : Config)
        (⟨some ⟨0, "/repo".data⟩, [], 1⟩ : GitState)
        (⟨"/other".data, false, true⟩ : Candidate)
        (⟨.completed "/repo\n".data, .completed []⟩ : Env)).refreshes = 1 ∧
    (Column.get (⟨⟨[], [], [], [], [], [], []⟩, 1, false⟩ : Config)
        (⟨some ⟨0, "/repo".data⟩, [], 1⟩ : GitState)
        (⟨"/other".data, false, true⟩ : Candidate)
        (⟨.completed "/repo\n".data, .completed []⟩ : Env)).st.git_root =
      some ⟨1, "/repo".data⟩ ∧
    (Column.get (⟨⟨[], [], [], [], [], [], []⟩, 1, false⟩ : Config)
        (⟨some ⟨0, "/repo".data⟩, [], 1⟩ : GitState)
        (⟨"/other".data, false, true⟩ : Candidate)
        (⟨.completed "/repo\n".data, .completed []⟩ : Env)).out =
      .ok (format [] 1) :=
  ⟨rfl, rfl, rfl, rfl, rfl⟩

/-- C6: evaluation of the code at the failing input.  The `except`
clauses catch only `subprocess.CalledProcessError`, which `subprocess.run`
never raises without `check=True`; a missing `git` binary or I/O error
raises an `OSError` (`FileNotFoundError`), which escapes both
`cache_status` (with the snapshot left empty) and `find_git_root` — the
claim says no external-process failure ever propagates.  The last two
conjuncts document the dead handler: a hypothetical `CalledProcessError`
would be swallowed. -/
theorem C6_oserror_escapes_refresh_and_resolution :
    cache_status (.raises .osError) ["stale".data] = (.error .osError, []) ∧
    find_git_root (.raises .osError) = .error .osError ∧
    cache_status (.raises .calledProcessError) ["stale".data] = (.ok (), []) ∧
    find_git_root (.raises .calledProcessError) = .ok none :=
  ⟨rfl, rfl, rfl, rfl⟩

/-- C7: evaluation of the code at the failing input.  For the raw status
output `"?? a.txt\nM"` the malformed one-character line `"M"` survives the
blank-line filter — it is not skipped — and sorting the parsed lines
raises `IndexError` inside the comparator (reading `a[1]` of `"M"`), so
`cache_status` terminates by exception with the snapshot left empty; the
claim says malformed lines are skipped and the remaining lines are cached
without crashing. -/
theorem C7_malformed_line_crashes_refresh :
    (splitNL "?? a.txt\nM".data).filter (· ≠ []) = ["?? a.txt".data, "M".data] ∧
    cache_status (.completed "?? a.txt\nM".data) [] = (.error .indexError, []) ∧
    sort "M".data "?? a.txt".data = .error .indexError :=
  ⟨rfl, rfl, rfl⟩

/-- C10: every `cache_status` call clears the snapshot first, so its
outcome is independent of the previous snapshot, and afterwards the
snapshot is either empty (on any failure, exception, or empty output) or
exactly the freshly parsed and sorted non-empty lines of the new output;
nothing of the previous snapshot is ever retained. -/
theorem C10_refresh_never_retains_snapshot (spawn : SpawnResult) (c0 : List Line) :
    (cache_status spawn c0).2 = (cache_status spawn []).2 ∧
    ((cache_status spawn c0).2 = [] ∨
      ∃ stdout, spawn = .completed stdout ∧ (cache_status spawn c0).1 = .ok () ∧
        pySorted ((splitNL stdout).filter (· ≠ [])) = .ok (cache_status spawn c0).2) := by
  refine ⟨rfl, ?_⟩
  match spawn with
  | .raises e =>
    by_cases h : e = .calledProcessError <;> simp [cache_status, h]
  | .completed stdout =>
    by_cases h : stdout = []
    · subst h
      left
      rfl
    · have hcs : cache_status (.completed stdout) c0 =
          (match pySorted ((splitNL stdout).filter (· ≠ [])) with
            | .error e => (.error e, ([] : List Line))
            | .ok sortedLines => (.ok (), sortedLines)) := by
        simp only [cache_status]
        rw [if_neg h]
      rcases hps : pySorted ((splitNL stdout).filter (· ≠ [])) with e | L
      · left
        rw [hcs, hps]
      · right
        refine ⟨stdout, rfl, ?_, ?_⟩
        · rw [hcs, hps]
        · rw [hcs, hps]

end DefxGit

